import Mathlib

/-!
# Verification of mcp-netcoredbg session and transport behaviour

Shallow embedding of the parts of `src/dap-client.ts` (DAP transport framing,
request/response correlation, thread-id defaulting, the session manager) and
`src/utils.ts` / `session.ts` (per-session breakpoint model, output buffer,
environment resolution, watch-mode reconnection flags), together with theorems
settling the frozen claims about them.

Conventions: JavaScript `Map` objects are embedded as insertion-ordered
association lists (`set` replaces in place or appends, `delete` removes the
entry, iteration follows list order); JavaScript truthiness of numbers
(`0`, `null`, `undefined` falsy) and strings (`""` falsy) is modelled
explicitly; strings are `List Char` where index arithmetic matters.
-/

namespace McpNetcoredbg

/-- JS `a || b` for numeric values (`0`, `null`/`undefined` are falsy). -/
def jsOrNat : Option Nat → Option Nat → Option Nat
  | some n, b => if n = 0 then b else some n
  | none, b => b

/-- JS `a || b` where `a` is a possibly-absent string (`""` is falsy). -/
def jsOrStr : Option String → String → String
  | some s, d => if s = "" then d else s
  | none, d => d

/-- JS `Map.get`. -/
def mapGet {κ α : Type} [BEq κ] (m : List (κ × α)) (k : κ) : Option α :=
  (m.find? (fun kv => kv.1 == k)).map (fun kv => kv.2)

/-- JS `Map.has`. -/
def mapHas {κ α : Type} [BEq κ] (m : List (κ × α)) (k : κ) : Bool :=
  m.any (fun kv => kv.1 == k)

/-- JS `Map.set`: replace in place when the key exists, else append. -/
def mapSet {κ α : Type} [BEq κ] : List (κ × α) → κ → α → List (κ × α)
  | [], k, v => [(k, v)]
  | kv :: rest, k, v =>
    if kv.1 == k then (k, v) :: rest else kv :: mapSet rest k v

/-- JS `Map.delete`: remove the entry for the key (keys are unique in a Map). -/
def mapDelete {κ α : Type} [BEq κ] : List (κ × α) → κ → List (κ × α)
  | [], _ => []
  | kv :: rest, k =>
    if kv.1 == k then rest else kv :: mapDelete rest k

/-!
## DAP frame parser (`DAPClient.processBuffer`, dap-client.ts 168-206)

`handleData` appends the incoming chunk to the accumulator and then
repeatedly consumes one complete frame (header block terminated by
`\r\n\r\n` plus `Content-Length` content bytes) until none remains.
A header block without a parseable `Content-Length` is skipped past its
terminator.  Frame payloads are emitted as messages (the subsequent
`JSON.parse`/`handleMessage` step is applied per payload and does not
interact with chunk boundaries).
-/

/-- The frame header terminator `"\r\n\r\n"` searched by `buffer.indexOf`. -/
def sepPat : List Char := ['\r', '\n', '\r', '\n']

/-- Does `l` start with the pattern `pat`? -/
def listStartsWith : List Char → List Char → Bool
  | [], _ => true
  | _ :: _, [] => false
  | p :: ps, c :: cs => p == c && listStartsWith ps cs

/-- `buffer.indexOf("\r\n\r\n")`: index of the first occurrence, `none` for `-1`. -/
def findSep : List Char → Option Nat
  | [] => none
  | c :: rest =>
    if listStartsWith sepPat (c :: rest) then some 0
    else (findSep rest).map (· + 1)

/-- JS regex `\s` restricted to the ASCII whitespace characters. -/
def isJsWhitespace (c : Char) : Bool :=
  c == ' ' || c == '\t' || c == '\n' || c == '\r' || c == '\x0b' || c == '\x0c'

/-- The literal `"Content-Length:"` lowered, for the case-insensitive match. -/
def clPat : List Char := "content-length:".toList

/-- `parseInt(digits, 10)` on a nonempty run of decimal digits. -/
def digitsToNat (ds : List Char) : Nat :=
  ds.foldl (fun acc c => acc * 10 + (c.toNat - '0'.toNat)) 0

/-- Attempt of the regex `/Content-Length:\s*(\d+)/i` anchored at the start of
`l`: the literal case-insensitively, then greedy whitespace, then at least one
digit; the captured value is the maximal digit run, parsed in base 10. -/
def clMatchAt (l : List Char) : Option Nat :=
  if listStartsWith clPat (l.map Char.toLower) then
    let afterWs := (l.drop clPat.length).dropWhile isJsWhitespace
    let digits := afterWs.takeWhile (fun c => c.isDigit)
    if digits.isEmpty then none else some (digitsToNat digits)
  else none

/-- `header.match(/Content-Length:\s*(\d+)/i)`: first position (left to right)
where the pattern matches, yielding the parsed content length. -/
def headerContentLength : List Char → Option Nat
  | [] => none
  | c :: rest =>
    match clMatchAt (c :: rest) with
    | some n => some n
    | none => headerContentLength rest

/-- One iteration of the `processBuffer` loop. -/
inductive PStep where
  | stop
  | skip (rest : List Char)
  | emit (msg rest : List Char)
deriving DecidableEq

/-- One iteration of the `processBuffer` loop on the accumulator `b`:
no `\r\n\r\n` or not enough content bytes stops; a header block without a
parseable `Content-Length` is skipped past its terminator; otherwise the
frame payload is extracted and consumed. -/
def parseStep (b : List Char) : PStep :=
  match findSep b with
  | none => .stop
  | some p =>
    match headerContentLength (b.take p) with
    | none => .skip (b.drop (p + 4))
    | some n =>
      if b.length < p + 4 + n then .stop
      else .emit ((b.drop (p + 4)).take n) (b.drop (p + 4 + n))

/-- The `processBuffer` loop with explicit fuel (each iteration consumes at
least four characters, so `b.length` fuel always suffices). -/
def runGo : Nat → List Char → List (List Char) × List Char
  | 0, b => ([], b)
  | fuel + 1, b =>
    match parseStep b with
    | .stop => ([], b)
    | .skip rest => runGo fuel rest
    | .emit msg rest =>
      let r := runGo fuel rest
      (msg :: r.1, r.2)

/-- Run `processBuffer` to completion: the emitted frame payloads in order and
the leftover accumulator. -/
def runParse (b : List Char) : List (List Char) × List Char :=
  runGo b.length b

/-- Transport parser state: messages emitted so far and the accumulator. -/
structure ParserState where
  msgs : List (List Char)
  buf : List Char
deriving DecidableEq

/-- `handleData`: append the chunk to the accumulator, then drain frames. -/
def feed (s : ParserState) (chunk : List Char) : ParserState :=
  ⟨s.msgs ++ (runParse (s.buf ++ chunk)).1, (runParse (s.buf ++ chunk)).2⟩

/-- Feed a sequence of read chunks one at a time. -/
def feedAll (s : ParserState) (chunks : List (List Char)) : ParserState :=
  chunks.foldl feed s

/-! ### Parser lemmas -/

theorem listStartsWith_length {pat l : List Char}
    (h : listStartsWith pat l = true) : pat.length ≤ l.length := by
  induction pat generalizing l with
  | nil => simp
  | cons p ps ih =>
    cases l with
    | nil => simp [listStartsWith] at h
    | cons c cs =>
      simp only [listStartsWith, Bool.and_eq_true] at h
      simpa using ih h.2

theorem listStartsWith_append {pat l : List Char} (c : List Char)
    (h : pat.length ≤ l.length) :
    listStartsWith pat (l ++ c) = listStartsWith pat l := by
  induction pat generalizing l with
  | nil => simp [listStartsWith]
  | cons p ps ih =>
    cases l with
    | nil => simp at h
    | cons x xs =>
      simp only [List.cons_append, listStartsWith, List.append_eq]
      rw [ih (by simpa using h)]

theorem findSep_bound {b : List Char} {p : Nat} (h : findSep b = some p) :
    p + 4 ≤ b.length := by
  induction b generalizing p with
  | nil => simp [findSep] at h
  | cons c rest ih =>
    by_cases hs : listStartsWith sepPat (c :: rest) = true
    · have h0 : p = 0 := by
        simp [findSep, hs] at h
        omega
      subst h0
      have h4 := listStartsWith_length hs
      have hsep : sepPat.length = 4 := rfl
      rw [hsep] at h4
      simpa using h4
    · rw [findSep, if_neg hs] at h
      match hq : findSep rest with
      | none => rw [hq] at h; simp at h
      | some q =>
        rw [hq, Option.map_some'] at h
        have hb := ih hq
        have hqp : q + 1 = p := by simpa using h
        simp only [List.length_cons]
        omega

theorem findSep_append {b : List Char} {p : Nat} (c : List Char)
    (h : findSep b = some p) : findSep (b ++ c) = some p := by
  induction b generalizing p with
  | nil => simp [findSep] at h
  | cons x rest ih =>
    have hlen : (4 : Nat) ≤ (x :: rest).length := by
      have := findSep_bound h
      omega
    have hsw : listStartsWith sepPat ((x :: rest) ++ c)
        = listStartsWith sepPat (x :: rest) :=
      listStartsWith_append c hlen
    by_cases hs : listStartsWith sepPat (x :: rest) = true
    · have h0 : p = 0 := by simp [findSep, hs] at h; omega
      subst h0
      simp only [List.cons_append] at hsw ⊢
      simp [findSep, hsw, hs]
    · rw [findSep, if_neg hs] at h
      match hq : findSep rest with
      | none => rw [hq] at h; simp at h
      | some q =>
        rw [hq, Option.map_some'] at h
        have hrc := ih hq
        simp only [List.cons_append] at hsw ⊢
        rw [findSep, hsw, if_neg hs, hrc, Option.map_some']
        exact h

theorem parseStep_nil : parseStep [] = .stop := rfl

theorem parseStep_skip_append {b r : List Char} (c : List Char)
    (h : parseStep b = .skip r) : parseStep (b ++ c) = .skip (r ++ c) := by
  unfold parseStep at h
  split at h
  · simp at h
  next p hp =>
    split at h
    next hh =>
      have hb := findSep_bound hp
      have hr : b.drop (p + 4) = r := by simpa using h
      have htake : (b ++ c).take p = b.take p :=
        List.take_append_of_le_length (by omega)
      have hdrop : (b ++ c).drop (p + 4) = b.drop (p + 4) ++ c :=
        List.drop_append_of_le_length (by omega)
      simp only [parseStep, findSep_append c hp, htake, hh, hdrop, hr]
    next n hh =>
      split at h <;> simp at h

theorem parseStep_emit_append {b m r : List Char} (c : List Char)
    (h : parseStep b = .emit m r) : parseStep (b ++ c) = .emit m (r ++ c) := by
  unfold parseStep at h
  split at h
  · simp at h
  next p hp =>
    split at h
    next hh => simp at h
    next n hh =>
      split at h
      next hlt => simp at h
      next hlt =>
        simp only [PStep.emit.injEq] at h
        obtain ⟨hm, hr⟩ := h
        have hb := findSep_bound hp
        have hnolt : ¬ (b ++ c).length < p + 4 + n := by
          simp only [List.length_append]; omega
        have htake : (b ++ c).take p = b.take p :=
          List.take_append_of_le_length (by omega)
        have hdrop : (b ++ c).drop (p + 4) = b.drop (p + 4) ++ c :=
          List.drop_append_of_le_length (by omega)
        have hdrop2 : (b ++ c).drop (p + 4 + n) = b.drop (p + 4 + n) ++ c :=
          List.drop_append_of_le_length (by omega)
        have htk : (b.drop (p + 4) ++ c).take n = (b.drop (p + 4)).take n :=
          List.take_append_of_le_length (by simp only [List.length_drop]; omega)
        simp only [parseStep, findSep_append c hp, htake, hh, if_neg hnolt,
          hdrop, hdrop2, htk, hm, hr]

theorem parseStep_skip_lt {b r : List Char} (h : parseStep b = .skip r) :
    r.length < b.length := by
  unfold parseStep at h
  split at h
  · simp at h
  next p hp =>
    split at h
    next hh =>
      have hb := findSep_bound hp
      have hr : b.drop (p + 4) = r := by simpa using h
      subst hr
      simp only [List.length_drop]
      omega
    next n hh =>
      split at h <;> simp at h

theorem parseStep_emit_lt {b m r : List Char} (h : parseStep b = .emit m r) :
    r.length < b.length := by
  unfold parseStep at h
  split at h
  · simp at h
  next p hp =>
    split at h
    next hh => simp at h
    next n hh =>
      split at h
      next hlt => simp at h
      next hlt =>
        simp only [PStep.emit.injEq] at h
        obtain ⟨_, hr⟩ := h
        have hb := findSep_bound hp
        subst hr
        simp only [List.length_drop]
        omega

theorem runGo_nil (fuel : Nat) : runGo fuel [] = ([], []) := by
  cases fuel with
  | zero => rfl
  | succ n => simp [runGo, parseStep_nil]

theorem runGo_congr (f1 : Nat) :
    ∀ (f2 : Nat) (b : List Char), b.length ≤ f1 → b.length ≤ f2 →
      runGo f1 b = runGo f2 b := by
  induction f1 with
  | zero =>
    intro f2 b h1 h2
    have hb : b = [] := List.length_eq_zero.mp (by omega)
    subst hb
    rw [runGo_nil, runGo_nil]
  | succ f ih =>
    intro f2 b h1 h2
    cases f2 with
    | zero =>
      have hb : b = [] := List.length_eq_zero.mp (by omega)
      subst hb
      rw [runGo_nil, runGo_nil]
    | succ f2' =>
      match hstep : parseStep b with
      | .stop => simp only [runGo, hstep]
      | .skip rest =>
        have hlt := parseStep_skip_lt hstep
        simp only [runGo, hstep]
        exact ih f2' rest (by omega) (by omega)
      | .emit msg rest =>
        have hlt := parseStep_emit_lt hstep
        simp only [runGo, hstep]
        rw [ih f2' rest (by omega) (by omega)]

theorem runGo_eq_runParse {fuel : Nat} {b : List Char} (h : b.length ≤ fuel) :
    runGo fuel b = runParse b :=
  runGo_congr fuel b.length b h le_rfl

theorem runParse_stop {b : List Char} (h : parseStep b = .stop) :
    runParse b = ([], b) := by
  unfold runParse
  cases hn : b.length with
  | zero => rfl
  | succ k => simp [runGo, h]

theorem runParse_skip {b r : List Char} (h : parseStep b = .skip r) :
    runParse b = runParse r := by
  have hlt := parseStep_skip_lt h
  unfold runParse
  cases hn : b.length with
  | zero => omega
  | succ k =>
    show runGo (k + 1) b = runGo r.length r
    simp only [runGo, h]
    exact runGo_congr k r.length r (by omega) le_rfl

theorem runParse_emit {b m r : List Char} (h : parseStep b = .emit m r) :
    runParse b = (m :: (runParse r).1, (runParse r).2) := by
  have hlt := parseStep_emit_lt h
  unfold runParse
  cases hn : b.length with
  | zero => omega
  | succ k =>
    show runGo (k + 1) b = (m :: (runGo r.length r).1, (runGo r.length r).2)
    simp only [runGo, h]
    rw [runGo_congr k r.length r (by omega) le_rfl]

/-- Draining a buffer extended on the right first consumes exactly the frames
of the original buffer, then continues on the leftover plus the extension. -/
theorem runParse_append (b c : List Char) :
    runParse (b ++ c)
      = ((runParse b).1 ++ (runParse ((runParse b).2 ++ c)).1,
         (runParse ((runParse b).2 ++ c)).2) := by
  match hstep : parseStep b with
  | .stop =>
    rw [runParse_stop hstep]
    simp
  | .skip r =>
    have hd := parseStep_skip_append c hstep
    rw [runParse_skip hstep, runParse_skip hd]
    exact runParse_append r c
  | .emit m r =>
    have hd := parseStep_emit_append c hstep
    rw [runParse_emit hstep, runParse_emit hd, runParse_append r c]
    simp
termination_by b.length
decreasing_by
  · exact parseStep_skip_lt hstep
  · exact parseStep_emit_lt hstep

/-- The leftover accumulator contains no complete frame. -/
theorem runParse_leftover (b : List Char) :
    runParse ((runParse b).2) = ([], (runParse b).2) := by
  match hstep : parseStep b with
  | .stop =>
    rw [runParse_stop hstep]
    exact runParse_stop hstep
  | .skip r =>
    rw [runParse_skip hstep]
    exact runParse_leftover r
  | .emit m r =>
    rw [runParse_emit hstep]
    exact runParse_leftover r
termination_by b.length
decreasing_by
  · exact parseStep_skip_lt hstep
  · exact parseStep_emit_lt hstep

theorem feed_feed (s : ParserState) (c1 c2 : List Char) :
    feed (feed s c1) c2 = feed s (c1 ++ c2) := by
  unfold feed
  have := runParse_append (s.buf ++ c1) c2
  rw [List.append_assoc] at this
  rw [this]
  simp

theorem feedAll_join_of_quiescent (chunks : List (List Char)) :
    ∀ s : ParserState, runParse s.buf = ([], s.buf) →
      feedAll s chunks = feed s chunks.flatten := by
  induction chunks with
  | nil =>
    intro s hq
    show s = feed s []
    unfold feed
    rw [List.append_nil, hq]
    simp
  | cons ch rest ih =>
    intro s hq
    show feedAll (feed s ch) rest = feed s ((ch :: rest).flatten)
    rw [ih (feed s ch) (runParse_leftover (s.buf ++ ch))]
    rw [feed_feed]
    simp

/-!
## Request/response correlation (`DAPClient.handleMessage` 208-226,
`DAPClient.cleanup` 417-427)

`pendingRequests` is embedded as the list of outstanding sequence numbers
(the stored resolve/reject callbacks become `DAPAction`s delivered by the
step function); its keys are unique because `sendRequest` allocates a fresh
`seq` per request.
-/

/-- A DAP response frame, as far as correlation is concerned. -/
structure DAPResponseMsg where
  request_seq : Nat
  success : Bool
  message : Option String
  command : String
deriving DecidableEq

/-- Completion delivered to a pending request's promise. -/
inductive DAPAction where
  | resolve (seq : Nat)
  | reject (seq : Nat) (msg : String)
deriving DecidableEq

/-- `response.message || ("Request failed: " + response.command)`. -/
def rejectMessage (r : DAPResponseMsg) : String :=
  jsOrStr r.message ("Request failed: " ++ r.command)

/-- `DAPClient.handleMessage` on a response: look up `request_seq`, delete the
entry, resolve on success or reject with the message-or-default; responses
matching no pending request are discarded. -/
def handleResponse (pending : List Nat) (r : DAPResponseMsg) :
    List Nat × List DAPAction :=
  if r.request_seq ∈ pending then
    (pending.erase r.request_seq,
     [if r.success then .resolve r.request_seq
      else .reject r.request_seq (rejectMessage r)])
  else (pending, [])

/-- `DAPClient.cleanup`: reject every pending request with "DAP client closed"
and clear the map. -/
def cleanupPending (pending : List Nat) : List Nat × List DAPAction :=
  ([], pending.map (fun n => .reject n "DAP client closed"))

/-- What the transport observes: a response frame, or teardown. -/
inductive DAPWire where
  | response (r : DAPResponseMsg)
  | closed
deriving DecidableEq

def dapStep (p : List Nat) : DAPWire → List Nat × List DAPAction
  | .response r => handleResponse p r
  | .closed => cleanupPending p

/-- Run a sequence of wire events, accumulating the delivered completions. -/
def dapRun (p : List Nat) : List DAPWire → List Nat × List DAPAction
  | [] => (p, [])
  | e :: evs =>
    ((dapRun (dapStep p e).1 evs).1,
     (dapStep p e).2 ++ (dapRun (dapStep p e).1 evs).2)

/-- Does this completion concern sequence number `n`? -/
def completesSeq (n : Nat) : DAPAction → Bool
  | .resolve m => m == n
  | .reject m _ => m == n

/-- Does this wire event complete a pending request with sequence `n`
(a response with `request_seq = n`, or teardown, which completes all)? -/
def matchesSeq (n : Nat) : DAPWire → Bool
  | .response r => r.request_seq == n
  | .closed => true

/-!
## Thread-id defaulting (`DAPClient.continue/stepOver/stepInto/stepOut/pause`,
dap-client.ts 305-335, 390-393)
-/

/-- `DAPClient.continue`/`stepOver`/`stepInto`/`stepOut`: resolve
`threadId || currentThreadId`; throw (sending nothing) when the result is
falsy, else send the named request with the resolved id. -/
def steppingRequest (command : String) (explicitTid currentTid : Option Nat) :
    Except String (String × Nat) :=
  match jsOrNat explicitTid currentTid with
  | some t =>
    if t = 0 then .error "No thread ID available. Is the debugger stopped?"
    else .ok (command, t)
  | none => .error "No thread ID available. Is the debugger stopped?"

def continueRequest : Option Nat → Option Nat → Except String (String × Nat) :=
  steppingRequest "continue"

def stepOverRequest : Option Nat → Option Nat → Except String (String × Nat) :=
  steppingRequest "next"

def stepIntoRequest : Option Nat → Option Nat → Except String (String × Nat) :=
  steppingRequest "stepIn"

def stepOutRequest : Option Nat → Option Nat → Except String (String × Nat) :=
  steppingRequest "stepOut"

/-- `DAPClient.pause`: `threadId || currentThreadId || 1`; always sends. -/
def pauseRequest (explicitTid currentTid : Option Nat) :
    Except String (String × Nat) :=
  .ok ("pause", (jsOrNat (jsOrNat explicitTid currentTid) (some 1)).getD 1)

/-!
## Per-file breakpoint model (`DebugSession.setBreakpoint` 454-502,
`DebugSession.removeBreakpoint` 504-526, `DebugSession.attachToNewProcess`
1036-1064 of session.ts)

`breakpointsByFile` / `conditionsByFile` for one (normalized) file path;
cross-file entries are untouched by these operations.  The debugger's echo
list for a `setBreakpoints` request is a parameter of the continuation.
-/

/-- Debugger echo for one breakpoint (DAP `Breakpoint`). -/
structure Breakpoint where
  id : Option Nat := none
  verified : Bool := true
  line : Option Nat := none
deriving DecidableEq

/-- One entry of a `setBreakpoints` request (DAP `SourceBreakpoint`). -/
structure SourceBreakpoint where
  line : Nat
  condition : Option String := none
deriving DecidableEq

/-- The two per-file maps of a session: debugger echoes by line, and the
separately stored condition strings by line. -/
structure FileBreakpointState where
  bps : List (Nat × Breakpoint)
  conds : List (Nat × Option String)
deriving DecidableEq

/-- `DebugSession.setBreakpoint`, the state mutation and the request built
before the `setBreakpoints` DAP call is awaited: store the condition, then
collect all breakpoints of the file (stored conditions) plus the new line
when not already present. -/
def setBreakpointPre (s : FileBreakpointState) (line : Nat)
    (condition : Option String) : FileBreakpointState × List SourceBreakpoint :=
  let conds' := mapSet s.conds line condition
  let fromExisting := s.bps.map (fun kv =>
    { line := kv.1, condition := (mapGet conds' kv.1).join : SourceBreakpoint })
  let allBps := fromExisting ++
    (if mapHas s.bps line then [] else [{ line := line, condition := condition }])
  ({ s with conds := conds' }, allBps)

/-- `DebugSession.setBreakpoint`, continuation on a successful
`setBreakpoints` response: find the echo for the requested line and record
it, or throw. -/
def setBreakpointPost (s : FileBreakpointState) (line : Nat)
    (response : List Breakpoint) :
    Except String (FileBreakpointState × Breakpoint) :=
  match response.find? (fun bp => bp.line == some line) with
  | some bp => .ok ({ s with bps := mapSet s.bps line bp }, bp)
  | none => .error "Failed to set breakpoint"

/-- `DebugSession.removeBreakpoint`: fail (sending nothing) when the line has
no breakpoint; otherwise delete from both maps, then re-send the remaining
set with stored conditions.  Returned are the state as mutated before the
DAP call is awaited and the request sent. -/
def removeBreakpoint (s : FileBreakpointState) (line : Nat) :
    Except String (FileBreakpointState × List SourceBreakpoint) :=
  if mapHas s.bps line then
    let bps' := mapDelete s.bps line
    let conds' := mapDelete s.conds line
    let remaining := bps'.map (fun kv =>
      { line := kv.1, condition := (mapGet conds' kv.1).join : SourceBreakpoint })
    .ok (⟨bps', conds'⟩, remaining)
  else .error "No breakpoint at this line"

/-- `DebugSession.attachToNewProcess`, the breakpoint-replay loop after a
successful reattach: for each file with a nonempty stored line set, a
`setBreakpoints` request carrying bare `line` entries (the stored conditions
are not consulted); per-file failures are swallowed. -/
def replayRequests (bpsByFile : List (String × List (Nat × Breakpoint))) :
    List (String × List SourceBreakpoint) :=
  bpsByFile.filterMap (fun fb =>
    let lines := fb.2.map Prod.fst
    if lines.length > 0 then
      some (fb.1, lines.map (fun l => { line := l }))
    else none)

/-!
## Output buffer (`DebugSession.trimOutputBuffer` 727-731 and its callers)
-/

/-- The `while (length > 100) shift()` loop of `trimOutputBuffer`, with fuel
(the initial length bounds the iteration count). -/
def trimGo : Nat → List String → List String
  | 0, l => l
  | fuel + 1, l => if l.length > 100 then trimGo fuel l.tail else l

def trimOutputBuffer (l : List String) : List String := trimGo l.length l

/-- A push followed by `trimOutputBuffer` (DAP `output` events, driver
stdout/stderr data handlers, `addOutput`). -/
def pushTrimmed (l : List String) (text : String) : List String :=
  trimOutputBuffer (l ++ [text])

/-- A push not followed by `trimOutputBuffer` (the watch controller's
informational pushes inside `watchReconnect`, `handleEarlyCleanup`,
`cleanupOldProcess`, `attachToNewProcess`, `waitForPortsRelease`,
`startWatchPolling` and `launchWatch`). -/
def pushRaw (l : List String) (text : String) : List String := l ++ [text]

/-- The operations that append to a session's output buffer. -/
inductive OutputOp where
  | dapOutputEvent (text : String)
  | driverData (text : String)
  | watchInfo (text : String)

def applyOutputOp (l : List String) : OutputOp → List String
  | .dapOutputEvent t => pushTrimmed l t
  | .driverData t => pushTrimmed l t
  | .watchInfo t => pushRaw l t

/-!
## Environment resolution (`DebugSession.resolveEnvironment` 735-760,
`DebugSession.readLaunchSettings` 762-780)

`readLaunchSettings` returns `null` when no `Properties/launchSettings.json`
is found within five parent directories or its JSON is malformed; that result
is the `settings` parameter here.  Environment records are insertion-ordered
key/value lists with `Object.assign` overwrite semantics.
-/

structure LaunchProfile where
  environmentVariables : Option (List (String × String)) := none
  applicationUrl : Option String := none
deriving DecidableEq

structure LaunchSettings where
  profiles : Option (List (String × LaunchProfile)) := none
deriving DecidableEq

/-- `Object.assign(target, src)`: write each entry of `src` in order. -/
def objAssign (target src : List (String × String)) : List (String × String) :=
  src.foldl (fun t kv => mapSet t kv.1 kv.2) target

/-- `settings?.profiles?.[launchProfile]` with JS truthiness of the profile
name. -/
def resolvedProfile (launchProfile : Option String)
    (settings : Option LaunchSettings) : Option LaunchProfile :=
  match launchProfile with
  | none => none
  | some lp =>
    if lp = "" then none
    else
      match settings with
      | none => none
      | some st =>
        match st.profiles with
        | none => none
        | some profs => mapGet profs lp

/-- The profile-derived portion of `DebugSession.resolveEnvironment`: starting
from the empty record, copy the profile's `environmentVariables`, then
overwrite `ASPNETCORE_URLS` with a truthy `applicationUrl`. -/
def profileEnvPart (launchProfile : Option String)
    (settings : Option LaunchSettings) : List (String × String) :=
  match resolvedProfile launchProfile settings with
  | none => []
  | some prof =>
    let r1 := match prof.environmentVariables with
      | some ev => objAssign [] ev
      | none => []
    match prof.applicationUrl with
    | some url => if url = "" then r1 else mapSet r1 "ASPNETCORE_URLS" url
    | none => r1

/-- `DebugSession.resolveEnvironment`: the profile-derived record, overlaid
with the explicit environment map. -/
def resolveEnvironment (launchProfile : Option String)
    (explicitEnv : Option (List (String × String)))
    (settings : Option LaunchSettings) : List (String × String) :=
  match explicitEnv with
  | some e => objAssign (profileEnvPart launchProfile settings) e
  | none => profileEnvPart launchProfile settings

/-- The per-key lookup the specification words describe for the profile part:
`ASPNETCORE_URLS ← applicationUrl` overlaid on `environmentVariables`
(for comparison with `profileEnvPart`). -/
def specProfileLookup (launchProfile : Option String)
    (settings : Option LaunchSettings) (k : String) : Option String :=
  match resolvedProfile launchProfile settings with
  | none => none
  | some prof =>
    let urlHit := match prof.applicationUrl with
      | some url =>
        if url = "" then none
        else if k = "ASPNETCORE_URLS" then some url else none
      | none => none
    match urlHit with
    | some v => some v
    | none =>
      match prof.environmentVariables with
      | some ev => mapGet ev k
      | none => none

/-- The per-key lookup the specification words describe for the whole
resolved environment: `environmentVariables ∪ ASPNETCORE_URLS ∪ explicitEnv`
with the explicit map winning (for comparison with `resolveEnvironment`). -/
def specEnvLookup (launchProfile : Option String)
    (explicitEnv : Option (List (String × String)))
    (settings : Option LaunchSettings) (k : String) : Option String :=
  match (match explicitEnv with | some e => mapGet e k | none => none) with
  | some v => some v
  | none => specProfileLookup launchProfile settings k

/-!
## Session manager (`SessionManager`, session-manager.ts)

Sessions are tracked by their insertion-ordered id list (the `DebugSession`
values play no role in the registry invariants).
-/

structure ManagerState where
  sessions : List String
  defaultSessionId : Option String
  sessionCounter : Nat
deriving DecidableEq

/-- `session-<n>` with the pre-incremented counter. -/
def generateSessionId (counter : Nat) : String :=
  "session-" ++ toString (counter + 1)

/-- `SessionManager.createSession`: `id || generateSessionId()` (generation
increments the counter even when the duplicate check then throws), throw on
duplicate, insert, and make the first session the default.  Returns the new
state and the created id (`none` when it threw). -/
def createSession (s : ManagerState) (id : Option String) :
    ManagerState × Option String :=
  let gen := match id with
    | some i =>
      if i = "" then (generateSessionId s.sessionCounter, s.sessionCounter + 1)
      else (i, s.sessionCounter)
    | none => (generateSessionId s.sessionCounter, s.sessionCounter + 1)
  if gen.1 ∈ s.sessions then ({ s with sessionCounter := gen.2 }, none)
  else
    ({ sessions := s.sessions ++ [gen.1],
       defaultSessionId :=
         match s.defaultSessionId with
         | none => some gen.1
         | some d => some d,
       sessionCounter := gen.2 }, some gen.1)

/-- `SessionManager.removeSession`: no-op when absent; else delete and, when
the default was removed, promote the first remaining session (or null). -/
def removeSession (s : ManagerState) (id : String) : ManagerState :=
  if id ∈ s.sessions then
    { sessions := s.sessions.erase id,
      defaultSessionId :=
        if s.defaultSessionId = some id then (s.sessions.erase id).head?
        else s.defaultSessionId,
      sessionCounter := s.sessionCounter }
  else s

/-- `SessionManager.setDefaultSession`: throws when absent, else sets. -/
def setDefaultSession (s : ManagerState) (id : String) : ManagerState :=
  if id ∈ s.sessions then { s with defaultSessionId := some id } else s

/-- `SessionManager.terminateAll`: clear the map and the default. -/
def terminateAllSessions (s : ManagerState) : ManagerState :=
  { sessions := [], defaultSessionId := none,
    sessionCounter := s.sessionCounter }

inductive ManagerOp where
  | create (id : Option String)
  | remove (id : String)
  | setDefault (id : String)
  | terminateAll

def applyManagerOp (s : ManagerState) : ManagerOp → ManagerState
  | .create id => (createSession s id).1
  | .remove id => removeSession s id
  | .setDefault id => setDefaultSession s id
  | .terminateAll => terminateAllSessions s

def initialManagerState : ManagerState := ⟨[], none, 0⟩

def runManager (ops : List ManagerOp) : ManagerState :=
  ops.foldl applyManagerOp initialManagerState

/-!
## Watch-mode reconnection flags (`DebugSession.handleEarlyCleanup` 917-947,
`DebugSession.watchReconnect` 949-969, the stdout handler 322-335 and the
`terminated` handler 697-702 of session.ts)
-/

structure WatchFlags where
  reconnecting : Bool
  earlyCleanupDone : Bool
  lastChildPid : Option Nat
deriving DecidableEq

/-- The synchronous prefix of `handleEarlyCleanup` (everything before its
first `await`): guard on `earlyCleanupDone`, then set it.  `reconnecting` is
not written anywhere in this method. -/
def handleEarlyCleanupSync (w : WatchFlags) : WatchFlags :=
  if w.earlyCleanupDone then w else { w with earlyCleanupDone := true }

/-- The driver-stdout handler when the chunk contains `Building...`: early
cleanup runs only with a (truthy) known child pid and at most once per
cycle. -/
def onBuildingObserved (w : WatchFlags) : WatchFlags :=
  if (w.lastChildPid.getD 0 != 0) && !w.earlyCleanupDone then
    handleEarlyCleanupSync w
  else w

/-- Entry of `watchReconnect` (with `skipCleanup = false`): a no-op while a
cycle is already running, else the reconnecting flag is raised.  The boolean
reports whether a new reconnect cycle began. -/
def watchReconnectEnter (w : WatchFlags) : WatchFlags × Bool :=
  if w.reconnecting then (w, false) else ({ w with reconnecting := true }, true)

/-- The `terminated` DAP event handler: trigger `watchReconnect` only when
not already reconnecting. -/
def onTerminated (w : WatchFlags) : WatchFlags × Bool :=
  if !w.reconnecting then watchReconnectEnter w else (w, false)

/-- Completion of `watchReconnect`: both flags are reset. -/
def watchReconnectFinish (w : WatchFlags) : WatchFlags :=
  { w with reconnecting := false, earlyCleanupDone := false }

/-! ### Association-map lemmas -/

theorem mapGet_mapSet_self {κ α : Type} [BEq κ] [LawfulBEq κ]
    (m : List (κ × α)) (k : κ) (v : α) : mapGet (mapSet m k v) k = some v := by
  induction m with
  | nil => simp [mapSet, mapGet]
  | cons kv rest ih =>
    by_cases h : kv.1 == k
    · simp [mapSet, mapGet, h]
    · simp only [mapSet, h, Bool.false_eq_true, if_false]
      simp only [mapGet, List.find?, h]
      exact ih

theorem mapGet_mapSet_ne {κ α : Type} [BEq κ] [LawfulBEq κ]
    (m : List (κ × α)) (k k' : κ) (v : α) (h : k' ≠ k) :
    mapGet (mapSet m k v) k' = mapGet m k' := by
  induction m with
  | nil => simp [mapSet, mapGet, List.find?, beq_false_of_ne (Ne.symm h)]
  | cons kv rest ih =>
    by_cases hk : kv.1 == k
    · have hkk : kv.1 = k := eq_of_beq hk
      have hne : (k == k') = false := beq_false_of_ne (Ne.symm h)
      have hne2 : (kv.1 == k') = false := by rw [hkk]; exact hne
      simp only [mapSet, hk, if_true]
      simp only [mapGet, List.find?, hne, hne2]
    · simp only [mapSet, hk, Bool.false_eq_true, if_false]
      simp only [mapGet, List.find?] at ih ⊢
      cases hkv : (kv.1 == k') <;> simp [hkv, ih]

theorem mapGet_eq_none_of_not_mem {κ α : Type} [BEq κ] [LawfulBEq κ]
    (m : List (κ × α)) (k : κ) (h : k ∉ m.map Prod.fst) : mapGet m k = none := by
  induction m with
  | nil => simp [mapGet]
  | cons kv rest ih =>
    simp only [List.map_cons, List.mem_cons, not_or] at h
    have hne : (kv.1 == k) = false := beq_false_of_ne (fun he => h.1 he.symm)
    simp only [mapGet, List.find?, hne]
    exact ih h.2

theorem mapHas_eq_true_iff {κ α : Type} [BEq κ] [LawfulBEq κ]
    (m : List (κ × α)) (k : κ) : mapHas m k = true ↔ k ∈ m.map Prod.fst := by
  induction m with
  | nil => simp [mapHas]
  | cons kv rest ih =>
    simp only [mapHas, List.any_cons, Bool.or_eq_true, List.map_cons,
      List.mem_cons, beq_iff_eq] at ih ⊢
    constructor
    · rintro (h | h)
      · exact Or.inl h.symm
      · exact Or.inr (ih.mp h)
    · rintro (h | h)
      · exact Or.inl h.symm
      · exact Or.inr (ih.mpr h)

theorem mapHas_eq_false_iff {κ α : Type} [BEq κ] [LawfulBEq κ]
    (m : List (κ × α)) (k : κ) : mapHas m k = false ↔ k ∉ m.map Prod.fst := by
  rw [← mapHas_eq_true_iff m k]
  cases mapHas m k <;> simp

theorem mapSet_of_not_has {κ α : Type} [BEq κ] [LawfulBEq κ]
    (m : List (κ × α)) (k : κ) (v : α) (h : mapHas m k = false) :
    mapSet m k v = m ++ [(k, v)] := by
  induction m with
  | nil => simp [mapSet]
  | cons kv rest ih =>
    simp only [mapHas, List.any_cons, Bool.or_eq_false_iff] at h
    simp only [mapSet, h.1, Bool.false_eq_true, if_false, List.cons_append,
      List.cons.injEq, true_and]
    exact ih h.2

theorem mapDelete_append_of_not_has {κ α : Type} [BEq κ] [LawfulBEq κ]
    (m : List (κ × α)) (k : κ) (v : α) (h : mapHas m k = false) :
    mapDelete (m ++ [(k, v)]) k = m := by
  induction m with
  | nil => simp [mapDelete]
  | cons kv rest ih =>
    simp only [mapHas, List.any_cons, Bool.or_eq_false_iff] at h
    simp only [List.cons_append, mapDelete, h.1, Bool.false_eq_true, if_false,
      List.cons.injEq, true_and]
    exact ih h.2

theorem mapDelete_not_mem_keys {κ α : Type} [BEq κ] [LawfulBEq κ]
    (m : List (κ × α)) (k : κ) (h : (m.map Prod.fst).Nodup) :
    k ∉ (mapDelete m k).map Prod.fst := by
  induction m with
  | nil => simp [mapDelete]
  | cons kv rest ih =>
    simp only [List.map_cons, List.nodup_cons] at h
    by_cases hk : kv.1 == k
    · have he : kv.1 = k := eq_of_beq hk
      simp only [mapDelete, hk, if_true]
      rw [← he]
      exact h.1
    · simp only [mapDelete, hk, Bool.false_eq_true, if_false, List.map_cons,
        List.mem_cons, not_or]
      refine ⟨fun he => ?_, ih h.2⟩
      exact absurd (beq_iff_eq.mpr he.symm) (by simp [hk])

theorem objAssign_mapGet (t src : List (String × String)) (k : String)
    (h : (src.map Prod.fst).Nodup) :
    mapGet (objAssign t src) k
      = match mapGet src k with
        | some v => some v
        | none => mapGet t k := by
  induction src generalizing t with
  | nil => simp [objAssign, mapGet]
  | cons kv rest ih =>
    simp only [List.map_cons, List.nodup_cons] at h
    have hstep : objAssign t (kv :: rest) = objAssign (mapSet t kv.1 kv.2) rest := rfl
    rw [hstep, ih _ h.2]
    by_cases hk : k = kv.1
    · have hrest : mapGet rest k = none := by
        rw [hk]; exact mapGet_eq_none_of_not_mem rest kv.1 h.1
      simp only [hrest]
      rw [hk, mapGet_mapSet_self]
      simp [mapGet, List.find?]
    · have hne : (kv.1 == k) = false := beq_false_of_ne (fun he => hk he.symm)
      rw [mapGet_mapSet_ne t kv.1 k kv.2 hk]
      have hcons : mapGet (kv :: rest) k = mapGet rest k := by
        simp [mapGet, List.find?, hne]
      rw [hcons]

/-!
## Claim theorems
-/

/-- Claim C8 counterexample: with no explicit and no cached thread id,
`DAPClient.pause` does not fail — it sends a `pause` request with the
hard-coded default thread id 1. -/
theorem pause_without_thread_id_sends_default :
    pauseRequest none none = .ok ("pause", 1) := rfl

/-- Claim C8 (amended): `continue`, `next` (stepOver), `stepIn` and `stepOut`
called without an explicit thread id fail with an error and send no request
when no implicit thread id is cached, and send the named request with the
implicit id when one is known; `pause`, however, falls back to thread id 1
and always sends. -/
theorem stepping_thread_id_defaulting :
    (∀ cmd : String, steppingRequest cmd none none
        = .error "No thread ID available. Is the debugger stopped?")
    ∧ (∀ t : Nat, t ≠ 0 →
        continueRequest none (some t) = .ok ("continue", t)
        ∧ stepOverRequest none (some t) = .ok ("next", t)
        ∧ stepIntoRequest none (some t) = .ok ("stepIn", t)
        ∧ stepOutRequest none (some t) = .ok ("stepOut", t)
        ∧ pauseRequest none (some t) = .ok ("pause", t))
    ∧ pauseRequest none none = Except.ok ("pause", 1) := by
  refine ⟨fun cmd => rfl, fun t ht => ?_, rfl⟩
  simp [continueRequest, stepOverRequest, stepIntoRequest, stepOutRequest,
    steppingRequest, pauseRequest, jsOrNat, ht]

/-- Witness for C8's amended theorem at thread id 7. -/
theorem stepping_thread_id_defaulting_witness :
    continueRequest none (some 7) = .ok ("continue", 7)
    ∧ stepOverRequest none (some 7) = .ok ("next", 7) := by
  have h := stepping_thread_id_defaulting.2.1 7 (by decide)
  exact ⟨h.1, h.2.1⟩

/-- Claim C2 counterexample: at the reachable watch state with a known child
pid and a fresh cycle, observing `Building...` runs the early-cleanup path,
which sets `earlyCleanupDone` but leaves `reconnecting` false — contradicting
the claim that both flags are set to true synchronously. -/
theorem early_cleanup_leaves_reconnecting_false :
    (onBuildingObserved ⟨false, false, some 1234⟩).reconnecting = false
    ∧ (onBuildingObserved ⟨false, false, some 1234⟩).earlyCleanupDone = true := by
  decide

/-- Claim C2 (amended): the early-cleanup path synchronously sets only the
`earlyCleanupDone` flag and leaves `reconnecting` unchanged (`reconnecting`
is raised by `watchReconnect` when a reconnect cycle actually begins); a
`terminated` DAP event arriving while `reconnecting` is true changes nothing
and starts no second reconnect; a `watchReconnect` entry on a quiet state
raises the flag and begins exactly one cycle; and completion of the
reconnect resets both flags to false. -/
theorem watch_reconnect_flag_protocol :
    (∀ w : WatchFlags, (handleEarlyCleanupSync w).earlyCleanupDone = true
        ∧ (handleEarlyCleanupSync w).reconnecting = w.reconnecting)
    ∧ (∀ w : WatchFlags, w.reconnecting = true → onTerminated w = (w, false))
    ∧ (∀ w : WatchFlags, w.reconnecting = false →
        watchReconnectEnter w = ({ w with reconnecting := true }, true))
    ∧ (∀ w : WatchFlags, (watchReconnectFinish w).reconnecting = false
        ∧ (watchReconnectFinish w).earlyCleanupDone = false) := by
  refine ⟨fun w => ?_, fun w h => ?_, fun w h => ?_, fun w => ?_⟩
  · unfold handleEarlyCleanupSync
    by_cases he : w.earlyCleanupDone <;> simp [he]
  · simp [onTerminated, h]
  · simp [watchReconnectEnter, h]
  · simp [watchReconnectFinish]

/-- Witness for C2's amended theorem on a mid-reconnect state. -/
theorem watch_reconnect_flag_protocol_witness :
    onTerminated ⟨true, true, some 41⟩ = (⟨true, true, some 41⟩, false)
    ∧ watchReconnectEnter ⟨false, true, some 41⟩ = (⟨true, true, some 41⟩, true) := by
  refine ⟨watch_reconnect_flag_protocol.2.1 _ rfl, ?_⟩
  have h := watch_reconnect_flag_protocol.2.2.1 ⟨false, true, some 41⟩ rfl
  exact h

/-! ### Output-buffer lemmas (C3) -/

theorem trimGo_length_le (fuel : Nat) :
    ∀ l : List String, l.length ≤ fuel + 100 → (trimGo fuel l).length ≤ 100 := by
  induction fuel with
  | zero => intro l h; simpa [trimGo] using h
  | succ f ih =>
    intro l h
    by_cases hl : l.length > 100
    · have : l.tail.length ≤ f + 100 := by
        simp only [List.length_tail]
        omega
      simpa [trimGo, hl] using ih l.tail this
    · simp only [trimGo, hl, if_false]
      omega

theorem trimOutputBuffer_length_le (l : List String) :
    (trimOutputBuffer l).length ≤ 100 :=
  trimGo_length_le l.length l (by omega)

theorem trimGo_of_le (fuel : Nat) (l : List String) (h : l.length ≤ 100) :
    trimGo fuel l = l := by
  cases fuel with
  | zero => rfl
  | succ f => simp [trimGo, Nat.not_lt.mpr h]

theorem trimGo_succ (f : Nat) (l : List String) :
    trimGo (f + 1) l = if l.length > 100 then trimGo f l.tail else l := rfl

set_option maxRecDepth 4000 in
/-- Claim C3 counterexample: starting from the empty buffer, 100 trimmed
appends (DAP output events) followed by a single one of the watch
controller's untrimmed informational pushes (`watchReconnect`, session.ts
line 957 pushes without calling `trimOutputBuffer`) leaves the buffer at 101
entries — observable, e.g., by `getStatus().outputLineCount`. -/
theorem output_buffer_overflow_on_watch_info :
    ((List.replicate 100 (OutputOp.dapOutputEvent "o")
        ++ [OutputOp.watchInfo
            "[Hot Reload] Detecting app restart, reconnecting debugger...\n"]).foldl
      applyOutputOp []).length = 101 := by decide

/-- Claim C3 (amended): appends that go through `trimOutputBuffer` (DAP
output events, driver stdout/stderr) keep the buffer at no more than 100
entries and drop the oldest entry first when full; the watch controller's
informational pushes, however, bypass the trim and can leave the buffer
above the bound until the next trimmed append. -/
theorem output_buffer_bound_and_fifo :
    (∀ (l : List String) (t : String),
        (applyOutputOp l (.dapOutputEvent t)).length ≤ 100
        ∧ (applyOutputOp l (.driverData t)).length ≤ 100)
    ∧ (∀ (l : List String) (t : String), l.length = 100 →
        applyOutputOp l (.dapOutputEvent t) = l.tail ++ [t])
    ∧ (∀ (l : List String) (t : String),
        applyOutputOp l (.watchInfo t) = l ++ [t]) := by
  refine ⟨fun l t => ?_, fun l t h => ?_, fun l t => rfl⟩
  · exact ⟨trimOutputBuffer_length_le _, trimOutputBuffer_length_le _⟩
  · show pushTrimmed l t = l.tail ++ [t]
    unfold pushTrimmed trimOutputBuffer
    have hlen : (l ++ [t]).length = 101 := by simp [h]
    have hgt : (l ++ [t]).length > 100 := by omega
    have htail : (l ++ [t]).tail = l.tail ++ [t] := by
      cases l with
      | nil => simp at h
      | cons a as => rfl
    rw [hlen, show (101 : Nat) = 100 + 1 from rfl, trimGo_succ, if_pos hgt, htail]
    refine trimGo_of_le _ _ ?_
    simp only [List.length_append, List.length_tail, List.length_singleton]
    omega

/-- Witness for C3's amended theorem on a full buffer. -/
theorem output_buffer_bound_and_fifo_witness :
    applyOutputOp (List.replicate 100 "o") (.dapOutputEvent "new")
      = (List.replicate 100 "o").tail ++ ["new"] := by
  exact output_buffer_bound_and_fifo.2.1 (List.replicate 100 "o") "new" (by simp)

/-! ### Breakpoint-model lemmas and claims C10, C1, C9 -/

theorem mapGet_mapDelete_self {κ α : Type} [BEq κ] [LawfulBEq κ]
    (m : List (κ × α)) (k : κ) (h : (m.map Prod.fst).Nodup) :
    mapGet (mapDelete m k) k = none :=
  mapGet_eq_none_of_not_mem _ _ (mapDelete_not_mem_keys m k h)

theorem mapHas_mapDelete_self {κ α : Type} [BEq κ] [LawfulBEq κ]
    (m : List (κ × α)) (k : κ) (h : (m.map Prod.fst).Nodup) :
    mapHas (mapDelete m k) k = false :=
  (mapHas_eq_false_iff _ _).mpr (mapDelete_not_mem_keys m k h)

theorem mapHas_append_self {κ α : Type} [BEq κ] [LawfulBEq κ]
    (m : List (κ × α)) (k : κ) (v : α) :
    mapHas (m ++ [(k, v)]) k = true := by
  rw [mapHas_eq_true_iff]
  simp

/-- Claim C10: both breakpoint operations mutate the session's client-side
model before the `setBreakpoints` DAP call is awaited, so a failed request
leaves the mutation behind: a failed `setBreakpoint(f, l, c)` leaves `c`
recorded in the condition map at `l` while the breakpoint map is unchanged
(in particular, a previously absent line gains no breakpoint entry), and a
failed `removeBreakpoint(f, l)` leaves `l` already deleted from both maps. -/
theorem breakpoint_ops_mutate_before_await :
    (∀ (s : FileBreakpointState) (line : Nat) (condition : Option String),
        ((setBreakpointPre s line condition).1).bps = s.bps
        ∧ mapGet ((setBreakpointPre s line condition).1).conds line
            = some condition)
    ∧ (∀ (s : FileBreakpointState) (line : Nat) (condition : Option String),
        mapHas s.bps line = false →
          mapHas ((setBreakpointPre s line condition).1).bps line = false)
    ∧ (∀ (s s' : FileBreakpointState) (line : Nat)
        (req : List SourceBreakpoint),
        (s.bps.map Prod.fst).Nodup → (s.conds.map Prod.fst).Nodup →
        removeBreakpoint s line = .ok (s', req) →
          mapHas s'.bps line = false ∧ mapGet s'.conds line = none) := by
  refine ⟨fun s line condition => ⟨rfl, mapGet_mapSet_self _ _ _⟩,
    fun s line condition h => h, fun s s' line req hn1 hn2 hrem => ?_⟩
  unfold removeBreakpoint at hrem
  by_cases hhas : mapHas s.bps line = true
  · rw [if_pos hhas] at hrem
    simp only [Except.ok.injEq, Prod.mk.injEq] at hrem
    obtain ⟨hs', _⟩ := hrem
    rw [← hs']
    exact ⟨mapHas_mapDelete_self _ _ hn1, mapGet_mapDelete_self _ _ hn2⟩
  · rw [if_neg hhas] at hrem
    exact absurd hrem (by simp)

/-- Witness for C10's theorem: a failed removal of the sole breakpoint of a
file leaves both per-file maps already empty. -/
theorem breakpoint_ops_mutate_before_await_witness :
    mapHas ([] : List (Nat × Breakpoint)) 5 = false
    ∧ mapGet ([] : List (Nat × Option String)) 5 = none := by
  exact breakpoint_ops_mutate_before_await.2.2
    ⟨[(5, { line := some 5 })], [(5, some "c")]⟩ ⟨[], []⟩ 5
    [] (by decide) (by decide) rfl

/-- Claim C1 counterexample: for a session storing condition `"x > 1"` at
`("a.cs", 5)`, the post-reattach replay request for `a.cs` contains only the
bare line entry; the conditioned entry the claim promises is absent. -/
theorem breakpoint_replay_drops_condition :
    replayRequests [("a.cs", [(5, { line := some 5 })])]
      = [("a.cs", [{ line := 5 }])]
    ∧ ({ line := 5, condition := some "x > 1" : SourceBreakpoint }
        ∉ [({ line := 5 } : SourceBreakpoint)]) := by decide

/-- Claim C1 (amended): after every successful reattach, every `(file, line)`
of the stored breakpoint map appears in the per-file `setBreakpoints` replay
request for that file — but the stored condition strings are not preserved:
every replayed entry carries no condition. -/
theorem breakpoint_replay_covers_lines :
    (∀ (m : List (String × List (Nat × Breakpoint))) (file : String)
        (bps : List (Nat × Breakpoint)) (line : Nat) (bp : Breakpoint),
        (file, bps) ∈ m → (line, bp) ∈ bps →
          ∃ req : List SourceBreakpoint,
            (file, req) ∈ replayRequests m
            ∧ ({ line := line } : SourceBreakpoint) ∈ req)
    ∧ (∀ (m : List (String × List (Nat × Breakpoint))) (file : String)
        (req : List SourceBreakpoint) (sb : SourceBreakpoint),
        (file, req) ∈ replayRequests m → sb ∈ req → sb.condition = none) := by
  constructor
  · intro m file bps line bp hm hb
    refine ⟨(bps.map Prod.fst).map (fun l => { line := l }), ?_, ?_⟩
    · refine List.mem_filterMap.mpr ⟨(file, bps), hm, ?_⟩
      have hlen : 0 < (bps.map Prod.fst).length := by
        simp only [List.length_map]
        exact List.length_pos.mpr (List.ne_nil_of_mem hb)
      simp only [replayRequests, hlen, gt_iff_lt, if_pos]
    · exact List.mem_map.mpr ⟨line, List.mem_map.mpr ⟨(line, bp), hb, rfl⟩, rfl⟩
  · intro m file req sb hreq hsb
    obtain ⟨fb, hfb, hf⟩ := List.mem_filterMap.mp hreq
    by_cases hlen : (fb.2.map Prod.fst).length > 0
    · simp only [hlen, if_pos] at hf
      simp only [Option.some.injEq, Prod.mk.injEq] at hf
      obtain ⟨-, hreq'⟩ := hf
      rw [← hreq'] at hsb
      obtain ⟨l, -, hl⟩ := List.mem_map.mp hsb
      rw [← hl]
    · simp [hlen] at hf
      simp only [List.length_map, gt_iff_lt] at hlen
      exact absurd hf.1 hlen

/-- Witness for C1's amended theorem on a one-file, one-line store. -/
theorem breakpoint_replay_covers_lines_witness :
    ∃ req : List SourceBreakpoint,
      ("a.cs", req) ∈ replayRequests [("a.cs", [(5, { line := some 5 })])]
      ∧ ({ line := 5 } : SourceBreakpoint) ∈ req := by
  exact breakpoint_replay_covers_lines.1
    [("a.cs", [(5, { line := some 5 })])] "a.cs"
    [(5, { line := some 5 })] 5 { line := some 5 } (by decide) (by decide)

/-- Claim C9 counterexample: when the line already has a breakpoint, the
`setBreakpoint`/`removeBreakpoint` pair does not restore the pre-pair state:
with line 5 present, the final `setBreakpoints` request after the pair is
empty rather than carrying line 5 again. -/
theorem set_then_remove_existing_line_not_restored :
    setBreakpointPost
        (setBreakpointPre ⟨[(5, { line := some 5 })], [(5, none)]⟩ 5 none).1 5
        [{ line := some 5 }]
      = .ok (⟨[(5, { line := some 5 })], [(5, none)]⟩, { line := some 5 })
    ∧ removeBreakpoint
        (⟨[(5, { line := some 5 })], [(5, none)]⟩ : FileBreakpointState) 5
      = .ok (⟨[], []⟩, [])
    ∧ ([] : List SourceBreakpoint).map SourceBreakpoint.line
        ≠ ([(5, ({ line := some 5 } : Breakpoint))]).map Prod.fst :=
  ⟨rfl, rfl, by decide⟩

/-- Claim C9 (amended): for a line not already present in the per-file model,
`setBreakpoint(f, l)` followed by `removeBreakpoint(f, l)` restores the
pre-pair state: the final `setBreakpoints` request for `f` carries exactly
the lines held before the pair; and `removeBreakpoint` on an absent
`(file, line)` fails explicitly without sending any request. -/
theorem set_then_remove_fresh_restores :
    (∀ (s : FileBreakpointState) (line : Nat) (condition : Option String)
        (response : List Breakpoint) (s1 : FileBreakpointState)
        (bp : Breakpoint) (s2 : FileBreakpointState)
        (req : List SourceBreakpoint),
        mapHas s.bps line = false →
        setBreakpointPost (setBreakpointPre s line condition).1 line response
          = .ok (s1, bp) →
        removeBreakpoint s1 line = .ok (s2, req) →
          req.map SourceBreakpoint.line = s.bps.map Prod.fst)
    ∧ (∀ (s : FileBreakpointState) (line : Nat),
        mapHas s.bps line = false →
          removeBreakpoint s line = .error "No breakpoint at this line") := by
  constructor
  · intro s line condition response s1 bp s2 req hfresh hpost hrem
    unfold setBreakpointPost at hpost
    cases hf : response.find? (fun bp => bp.line == some line) with
    | none => rw [hf] at hpost; exact absurd hpost (by simp)
    | some bpf =>
      rw [hf] at hpost
      simp only [Except.ok.injEq, Prod.mk.injEq] at hpost
      obtain ⟨hs1, -⟩ := hpost
      have hbps1 : s1.bps = s.bps ++ [(line, bpf)] := by
        rw [← hs1]
        exact mapSet_of_not_has _ _ _ hfresh
      unfold removeBreakpoint at hrem
      rw [if_pos (by rw [hbps1]; exact mapHas_append_self _ _ _)] at hrem
      simp only [Except.ok.injEq, Prod.mk.injEq] at hrem
      obtain ⟨-, hreq⟩ := hrem
      rw [← hreq, hbps1, mapDelete_append_of_not_has _ _ _ hfresh]
      simp [List.map_map]
  · intro s line h
    unfold removeBreakpoint
    rw [if_neg (by simp [h])]

/-- Witness for C9's amended theorem: setting then removing line 5 next to an
existing breakpoint at line 3 re-sends exactly line 3; and removing from an
empty model fails. -/
theorem set_then_remove_fresh_restores_witness :
    ([{ line := 3, condition := some "c" }] : List SourceBreakpoint).map
        SourceBreakpoint.line
      = ([(3, ({ line := some 3 } : Breakpoint))]).map Prod.fst
    ∧ removeBreakpoint (⟨[], []⟩ : FileBreakpointState) 5
      = .error "No breakpoint at this line" := by
  constructor
  · exact set_then_remove_fresh_restores.1
      ⟨[(3, { line := some 3 })], [(3, some "c")]⟩ 5 (some "x > 1")
      [{ line := some 5 }]
      ⟨[(3, { line := some 3 }), (5, { line := some 5 })],
        [(3, some "c"), (5, some "x > 1")]⟩
      { line := some 5 }
      ⟨[(3, { line := some 3 })], [(3, some "c")]⟩
      [{ line := 3, condition := some "c" }]
      (by decide) rfl rfl
  · exact set_then_remove_fresh_restores.2 ⟨[], []⟩ 5 rfl

/-! ### Environment-resolution lemmas and claim C6 -/

theorem profileEnvPart_lookup (lp : Option String)
    (st : Option LaunchSettings) (k : String)
    (hev : ((((resolvedProfile lp st).map
        (fun prof => prof.environmentVariables.getD [])).getD []).map
          Prod.fst).Nodup) :
    mapGet (profileEnvPart lp st) k = specProfileLookup lp st k := by
  cases hrp : resolvedProfile lp st with
  | none => simp [profileEnvPart, specProfileLookup, hrp, mapGet]
  | some prof =>
    simp only [profileEnvPart, specProfileLookup, hrp]
    have henv : mapGet (match prof.environmentVariables with
          | some ev => objAssign [] ev
          | none => ([] : List (String × String))) k
        = (match prof.environmentVariables with
          | some ev => mapGet ev k
          | none => none) := by
      cases he : prof.environmentVariables with
      | none => simp [mapGet]
      | some ev =>
        have hnd : (ev.map Prod.fst).Nodup := by
          rw [hrp] at hev
          simp only [Option.map_some', he, Option.getD_some] at hev
          exact hev
        rw [objAssign_mapGet [] ev k hnd]
        cases hgk : ev.find? (fun kv => kv.1 == k) <;> simp [mapGet, hgk]
    cases hu : prof.applicationUrl with
    | none => simpa using henv
    | some url =>
      by_cases hurl : url = ""
      · simp only [hurl, if_pos rfl, if_true]
        simpa using henv
      · simp only [if_neg hurl]
        by_cases hk : k = "ASPNETCORE_URLS"
        · rw [hk, mapGet_mapSet_self]
          simp
        · rw [mapGet_mapSet_ne _ _ _ _ hk]
          simp only [if_neg hk]
          simpa using henv

/-- Claim C6: for every launch, the resolved environment is the profile's
`environmentVariables`, overlaid with `ASPNETCORE_URLS` from the profile's
`applicationUrl` when present, overlaid with the explicit environment map —
a key in several sources takes the explicit map's value; when the named
profile is absent or the launch-settings JSON is missing or malformed
(`settings = none`), only the explicit map contributes. -/
theorem resolve_environment_matches_spec
    (lp : Option String) (ex : Option (List (String × String)))
    (st : Option LaunchSettings) (k : String)
    (hex : ((ex.getD []).map Prod.fst).Nodup)
    (hev : ((((resolvedProfile lp st).map
        (fun prof => prof.environmentVariables.getD [])).getD []).map
          Prod.fst).Nodup) :
    mapGet (resolveEnvironment lp ex st) k = specEnvLookup lp ex st k := by
  unfold resolveEnvironment specEnvLookup
  cases hx : ex with
  | none => simpa using profileEnvPart_lookup lp st k hev
  | some e =>
    have hnd : (e.map Prod.fst).Nodup := by
      rw [hx] at hex
      simpa using hex
    rw [objAssign_mapGet _ e k hnd, profileEnvPart_lookup lp st k hev]

/-- Witness for C6's theorem: explicit `ASPNETCORE_URLS` wins over both the
profile's `applicationUrl` and its `environmentVariables` entry. -/
theorem resolve_environment_matches_spec_witness :
    mapGet (resolveEnvironment (some "https")
        (some [("FOO", "bar"), ("ASPNETCORE_URLS", "exp")])
        (some ⟨some [("https",
          ⟨some [("A", "1"), ("ASPNETCORE_URLS", "prof")],
            some "http://localhost:5000"⟩)]⟩))
      "ASPNETCORE_URLS"
      = specEnvLookup (some "https")
        (some [("FOO", "bar"), ("ASPNETCORE_URLS", "exp")])
        (some ⟨some [("https",
          ⟨some [("A", "1"), ("ASPNETCORE_URLS", "prof")],
            some "http://localhost:5000"⟩)]⟩)
        "ASPNETCORE_URLS"
    ∧ mapGet (resolveEnvironment (some "https")
        (some [("FOO", "bar"), ("ASPNETCORE_URLS", "exp")])
        (some ⟨some [("https",
          ⟨some [("A", "1"), ("ASPNETCORE_URLS", "prof")],
            some "http://localhost:5000"⟩)]⟩))
      "ASPNETCORE_URLS" = some "exp" := by
  refine ⟨resolve_environment_matches_spec _ _ _ _ (by decide) (by decide), ?_⟩
  decide

/-! ### Session-manager invariant and claim C7 -/

/-- The registry invariant: a default exists iff some session exists, and the
default names a live session. -/
def managerInvariant (s : ManagerState) : Prop :=
  (s.defaultSessionId = none ↔ s.sessions = [])
  ∧ (∀ d, s.defaultSessionId = some d → d ∈ s.sessions)

theorem applyManagerOp_preserves (s : ManagerState) (op : ManagerOp)
    (h : managerInvariant s) : managerInvariant (applyManagerOp s op) := by
  obtain ⟨h1, h2⟩ := h
  cases op with
  | create id =>
    show managerInvariant (createSession s id).1
    unfold createSession
    by_cases hdup : (match id with
        | some i =>
          if i = "" then (generateSessionId s.sessionCounter, s.sessionCounter + 1)
          else (i, s.sessionCounter)
        | none => (generateSessionId s.sessionCounter, s.sessionCounter + 1)).1
        ∈ s.sessions
    · simp only [hdup, if_true]
      exact ⟨h1, h2⟩
    · simp only [hdup, if_false]
      constructor
      · constructor
        · intro hd
          cases hdef : s.defaultSessionId <;> simp [hdef] at hd
        · intro hd
          simp at hd
      · intro d hd
        cases hdef : s.defaultSessionId with
        | none =>
          rw [hdef] at hd
          simp only at hd
          simp [← Option.some.inj hd]
        | some d0 =>
          rw [hdef] at hd
          simp only at hd
          rw [← Option.some.inj hd]
          exact List.mem_append_left _ (h2 d0 hdef)
  | remove id =>
    show managerInvariant (removeSession s id)
    unfold removeSession
    by_cases hmem : id ∈ s.sessions
    · simp only [hmem, if_true]
      by_cases hd : s.defaultSessionId = some id
      · simp only [hd, if_pos]
        refine ⟨⟨fun h => ?_, fun h => ?_⟩, fun d hdd => ?_⟩
        · exact List.head?_eq_none_iff.mp h
        · exact List.head?_eq_none_iff.mpr h
        · have hdd0 : (s.sessions.erase id).head? = some d := hdd
          cases he : s.sessions.erase id with
          | nil =>
            rw [he] at hdd0
            simp at hdd0
          | cons a as =>
            rw [he] at hdd0
            simp only [List.head?_cons, Option.some.injEq] at hdd0
            show d ∈ a :: as
            rw [← hdd0]
            exact List.mem_cons_self a as
      · simp only [hd, if_neg, if_false]
        cases hdef : s.defaultSessionId with
        | none =>
          exact absurd (h1.mp hdef ▸ hmem) (List.not_mem_nil id)
        | some d0 =>
          have hne : d0 ≠ id := fun he => hd (by rw [hdef, he])
          have hmem0 : d0 ∈ s.sessions.erase id :=
            (List.mem_erase_of_ne hne).mpr (h2 d0 hdef)
          refine ⟨⟨fun hc => ?_, fun hc => ?_⟩, fun d hdd => ?_⟩
          · simp at hc
          · have hc' : s.sessions.erase id = [] := hc
            rw [hc'] at hmem0
            exact absurd hmem0 (List.not_mem_nil d0)
          · show d ∈ s.sessions.erase id
            rw [← Option.some.inj hdd]
            exact hmem0
    · rw [if_neg hmem]
      exact ⟨h1, h2⟩
  | setDefault id =>
    show managerInvariant (setDefaultSession s id)
    unfold setDefaultSession
    by_cases hmem : id ∈ s.sessions
    · simp only [hmem, if_true]
      constructor
      · constructor
        · intro hc; simp at hc
        · intro hc
          rw [hc] at hmem
          exact absurd hmem (List.not_mem_nil id)
      · intro d hdd
        rw [← Option.some.inj hdd]
        exact hmem
    · simp only [hmem, if_false]
      exact ⟨h1, h2⟩
  | terminateAll =>
    exact ⟨by simp [applyManagerOp, terminateAllSessions],
      by intro d hd; simp [applyManagerOp, terminateAllSessions] at hd⟩

theorem foldl_preserves_managerInvariant (ops : List ManagerOp) :
    ∀ s : ManagerState, managerInvariant s →
      managerInvariant (ops.foldl applyManagerOp s) := by
  induction ops with
  | nil => intro s h; exact h
  | cons op rest ih =>
    intro s h
    exact ih _ (applyManagerOp_preserves s op h)

/-- Claim C7: over every sequence of manager operations, `defaultSessionId`
is null iff the session map is empty (and the default always names a live
session); the first successfully created session becomes the default; and
removing the default promotes a remaining session when one exists. -/
theorem manager_default_iff_sessions :
    (∀ ops : List ManagerOp, managerInvariant (runManager ops))
    ∧ (∀ (s : ManagerState) (id : Option String) (sid : String),
        s.defaultSessionId = none → (createSession s id).2 = some sid →
        (createSession s id).1.defaultSessionId = some sid)
    ∧ (∀ (s : ManagerState) (d : String),
        managerInvariant s → s.defaultSessionId = some d →
        s.sessions.erase d ≠ [] →
        ∃ p, (removeSession s d).defaultSessionId = some p
          ∧ p ∈ (removeSession s d).sessions) := by
  refine ⟨fun ops => ?_, fun s id sid hdef hcr => ?_, fun s d hinv hdef hne => ?_⟩
  · exact foldl_preserves_managerInvariant ops initialManagerState
      ⟨by simp [initialManagerState], by intro d hd; simp [initialManagerState] at hd⟩
  · unfold createSession at hcr ⊢
    by_cases hdup : (match id with
        | some i =>
          if i = "" then (generateSessionId s.sessionCounter, s.sessionCounter + 1)
          else (i, s.sessionCounter)
        | none => (generateSessionId s.sessionCounter, s.sessionCounter + 1)).1
        ∈ s.sessions
    · rw [if_pos hdup] at hcr
      simp at hcr
    · rw [if_neg hdup] at hcr ⊢
      simp only [Option.some.injEq] at hcr
      simp only [hdef, hcr]
  · have hmem : d ∈ s.sessions := hinv.2 d hdef
    unfold removeSession
    rw [if_pos hmem]
    simp only [hdef, if_pos rfl]
    cases he : s.sessions.erase d with
    | nil => exact absurd he hne
    | cons a as => exact ⟨a, rfl, List.mem_cons_self a as⟩

/-- Witness for C7's conjuncts with hypotheses: creating into an empty
manager makes the new session the default; removing the default of a
two-session manager promotes the remaining session. -/
theorem manager_default_iff_sessions_witness :
    (createSession ⟨[], none, 0⟩ (some "api")).1.defaultSessionId = some "api"
    ∧ ∃ p, (removeSession ⟨["a", "b"], some "a", 2⟩ "a").defaultSessionId
          = some p
        ∧ p ∈ (removeSession ⟨["a", "b"], some "a", 2⟩ "a").sessions := by
  constructor
  · exact manager_default_iff_sessions.2.1 ⟨[], none, 0⟩ (some "api") "api" rfl rfl
  · refine manager_default_iff_sessions.2.2 ⟨["a", "b"], some "a", 2⟩ "a"
      ⟨by simp, ?_⟩ rfl (by decide)
    intro d hd
    rw [← Option.some.inj hd]
    simp

/-! ### Request/response correlation lemmas and claim C4 -/

theorem dapStep_not_mem {p : List Nat} {n : Nat} (e : DAPWire) (h : n ∉ p) :
    n ∉ (dapStep p e).1 := by
  cases e with
  | response r =>
    show n ∉ (handleResponse p r).1
    unfold handleResponse
    by_cases hm : r.request_seq ∈ p
    · simp only [hm, if_true]
      exact fun hc => h (List.mem_of_mem_erase hc)
    · simp only [hm, if_false]
      exact h
  | closed => simp [dapStep, cleanupPending]

theorem cleanup_filter_none {as : List Nat} {n : Nat} (h : n ∉ as) :
    (as.map (fun m => DAPAction.reject m "DAP client closed")).filter
        (completesSeq n) = [] := by
  induction as with
  | nil => rfl
  | cons b bs ih =>
    simp only [List.mem_cons, not_or] at h
    have hbne : (b == n) = false := beq_false_of_ne (fun he => h.1 he.symm)
    simp only [List.map_cons, List.filter_cons, completesSeq, hbne]
    exact ih h.2

theorem dapRun_no_completion (evs : List DAPWire) :
    ∀ (p : List Nat) (n : Nat), n ∉ p →
      (dapRun p evs).2.filter (completesSeq n) = [] := by
  induction evs with
  | nil => intro p n h; rfl
  | cons e evs ih =>
    intro p n h
    show ((dapStep p e).2 ++ (dapRun (dapStep p e).1 evs).2).filter
        (completesSeq n) = []
    rw [List.filter_append, ih _ n (dapStep_not_mem e h), List.append_nil]
    cases e with
    | response r =>
      show (handleResponse p r).2.filter (completesSeq n) = []
      unfold handleResponse
      by_cases hm : r.request_seq ∈ p
      · have hne : (r.request_seq == n) = false :=
          beq_false_of_ne (fun he => h (he ▸ hm))
        simp only [hm, if_true]
        cases hs : r.success <;> simp [completesSeq, hne]
      · simp [hm]
    | closed =>
      show (p.map (fun m => DAPAction.reject m "DAP client closed")).filter
          (completesSeq n) = []
      exact cleanup_filter_none h

theorem cleanup_filter_single {p : List Nat} {n : Nat}
    (hnd : p.Nodup) (hmem : n ∈ p) :
    (p.map (fun m => DAPAction.reject m "DAP client closed")).filter
        (completesSeq n)
      = [.reject n "DAP client closed"] := by
  induction p with
  | nil => simp at hmem
  | cons a as ih =>
    simp only [List.nodup_cons] at hnd
    rcases List.mem_cons.mp hmem with h | h
    · have hbeq : (a == n) = true := beq_iff_eq.mpr h.symm
      simp only [List.map_cons, List.filter_cons, completesSeq, hbeq, if_pos]
      have hnot : n ∉ as := h ▸ hnd.1
      rw [cleanup_filter_none hnot, h]
    · have hane : a ≠ n := fun he => hnd.1 (he ▸ h)
      have hbeq : (a == n) = false := beq_false_of_ne hane
      simp only [List.map_cons, List.filter_cons, completesSeq, hbeq]
      exact ih hnd.2 h

theorem dapRun_completes_once (evs : List DAPWire) :
    ∀ (p : List Nat) (n : Nat), p.Nodup → n ∈ p →
      (∃ e ∈ evs, matchesSeq n e = true) →
      ((dapRun p evs).2.filter (completesSeq n)).length = 1 := by
  induction evs with
  | nil =>
    intro p n _ _ hex
    obtain ⟨e, he, -⟩ := hex
    exact absurd he (List.not_mem_nil e)
  | cons e evs ih =>
    intro p n hnd hmem hex
    show (((dapStep p e).2 ++ (dapRun (dapStep p e).1 evs).2).filter
        (completesSeq n)).length = 1
    rw [List.filter_append, List.length_append]
    cases e with
    | closed =>
      show ((cleanupPending p).2.filter (completesSeq n)).length
          + ((dapRun (cleanupPending p).1 evs).2.filter (completesSeq n)).length = 1
      simp only [cleanupPending]
      rw [cleanup_filter_single hnd hmem,
        dapRun_no_completion evs [] n (List.not_mem_nil n)]
      rfl
    | response r =>
      by_cases hrn : r.request_seq = n
      · show ((handleResponse p r).2.filter (completesSeq n)).length
            + ((dapRun (handleResponse p r).1 evs).2.filter (completesSeq n)).length = 1
        have hmem' : r.request_seq ∈ p := hrn ▸ hmem
        unfold handleResponse
        simp only [hmem', if_true]
        have hnotin : n ∉ p.erase r.request_seq := by
          rw [hrn]
          exact hnd.not_mem_erase
        rw [dapRun_no_completion evs _ n hnotin]
        have hbeq : (r.request_seq == n) = true := beq_iff_eq.mpr hrn
        cases hs : r.success <;> simp [completesSeq, hbeq]
      · show ((handleResponse p r).2.filter (completesSeq n)).length
            + ((dapRun (handleResponse p r).1 evs).2.filter (completesSeq n)).length = 1
        have hexr : ∃ e ∈ evs, matchesSeq n e = true := by
          obtain ⟨e0, he0, hm0⟩ := hex
          rcases List.mem_cons.mp he0 with h0 | h0
          · rw [h0] at hm0
            simp only [matchesSeq, beq_iff_eq] at hm0
            exact absurd hm0 hrn
          · exact ⟨e0, h0, hm0⟩
        have hbne : (r.request_seq == n) = false := beq_false_of_ne hrn
        unfold handleResponse
        by_cases hm : r.request_seq ∈ p
        · simp only [hm, if_true]
          have hmem' : n ∈ p.erase r.request_seq :=
            (List.mem_erase_of_ne (fun he => hrn he.symm)).mpr hmem
          rw [ih _ n (hnd.erase _) hmem' hexr]
          cases hs : r.success <;> simp [completesSeq, hbne]
        · simp only [hm, if_false]
          rw [ih _ n hnd hmem hexr]
          rfl

/-- Claim C4: every response is correlated by `request_seq`: a matching
response completes its pending request exactly once (resolving on success,
rejecting with the response's message or the default on failure), teardown
rejects every pending request with "DAP client closed" and clears the map,
responses matching nothing are discarded, and no request is completed
twice. -/
theorem dap_response_correlation :
    (∀ (p : List Nat) (evs : List DAPWire) (n : Nat),
        p.Nodup → n ∈ p → (∃ e ∈ evs, matchesSeq n e = true) →
        ((dapRun p evs).2.filter (completesSeq n)).length = 1)
    ∧ (∀ (p : List Nat) (evs : List DAPWire) (n : Nat),
        n ∉ p → (dapRun p evs).2.filter (completesSeq n) = [])
    ∧ (∀ (p : List Nat) (r : DAPResponseMsg),
        r.request_seq ∈ p →
        (handleResponse p r).2
          = [if r.success then .resolve r.request_seq
             else .reject r.request_seq (rejectMessage r)])
    ∧ (∀ (p : List Nat) (r : DAPResponseMsg),
        r.request_seq ∉ p → handleResponse p r = (p, []))
    ∧ (∀ p : List Nat,
        cleanupPending p
          = ([], p.map (fun n => .reject n "DAP client closed"))) := by
  refine ⟨fun p evs n => dapRun_completes_once evs p n,
    fun p evs n => dapRun_no_completion evs p n,
    fun p r hm => ?_, fun p r hm => ?_, fun p => rfl⟩
  · unfold handleResponse
    rw [if_pos hm]
  · unfold handleResponse
    rw [if_neg hm]

/-- Witness for C4's theorem: one matched response among two pending requests
completes exactly one promise, and an unmatched response is discarded. -/
theorem dap_response_correlation_witness :
    ((dapRun [1, 2] [.response ⟨2, true, none, "launch"⟩]).2.filter
        (completesSeq 2)).length = 1
    ∧ handleResponse [1, 2] ⟨9, true, none, "threads"⟩ = ([1, 2], []) := by
  constructor
  · exact dap_response_correlation.1 [1, 2]
      [.response ⟨2, true, none, "launch"⟩] 2 (by decide) (by decide)
      ⟨.response ⟨2, true, none, "launch"⟩, by simp, by decide⟩
  · exact dap_response_correlation.2.2.2.1 [1, 2] ⟨9, true, none, "threads"⟩
      (by decide)

/-! ### Claim C5 -/

/-- Claim C5: the DAP frame parser is chunking-invariant — feeding any list
of read chunks one at a time yields exactly the messages (in order) and the
leftover of feeding their concatenation at once (covering a header split
across chunks and several frames in one chunk) — and a header block without
a parseable `Content-Length` is skipped past its `\r\n\r\n` terminator. -/
theorem dap_parser_chunking_invariant :
    (∀ chunks : List (List Char),
        feedAll ⟨[], []⟩ chunks = feed ⟨[], []⟩ chunks.flatten)
    ∧ (∀ (b : List Char) (p : Nat),
        findSep b = some p → headerContentLength (b.take p) = none →
        runParse b = runParse (b.drop (p + 4))) := by
  constructor
  · intro chunks
    exact feedAll_join_of_quiescent chunks ⟨[], []⟩ rfl
  · intro b p hp hh
    exact runParse_skip (by simp only [parseStep, hp, hh])

/-- Witness for C5's theorem: a split header is reassembled into one message,
two frames in one chunk are both emitted, and a header block without a
`Content-Length` is skipped. -/
theorem dap_parser_chunking_invariant_witness :
    feedAll ⟨[], []⟩ ["Content-Len".toList, "gth: 5\r\n\r\nHELLO".toList]
      = feed ⟨[], []⟩ ("Content-Length: 5\r\n\r\nHELLO".toList)
    ∧ feedAll ⟨[], []⟩
        ["Content-Length: 2\r\n\r\nabContent-Length: 2\r\n\r\ncd".toList]
      = feed ⟨[], []⟩
        ("Content-Length: 2\r\n\r\nabContent-Length: 2\r\n\r\ncd".toList)
    ∧ runParse ("Bad\r\n\r\nxy".toList) = runParse ("xy".toList) := by
  refine ⟨?_, ?_, ?_⟩
  · have h := dap_parser_chunking_invariant.1
      ["Content-Len".toList, "gth: 5\r\n\r\nHELLO".toList]
    have hj : (["Content-Len".toList,
        "gth: 5\r\n\r\nHELLO".toList] : List (List Char)).flatten
        = "Content-Length: 5\r\n\r\nHELLO".toList := by decide
    rw [hj] at h
    exact h
  · have h := dap_parser_chunking_invariant.1
      ["Content-Length: 2\r\n\r\nabContent-Length: 2\r\n\r\ncd".toList]
    have hj : (["Content-Length: 2\r\n\r\nabContent-Length: 2\r\n\r\ncd".toList]
        : List (List Char)).flatten
        = "Content-Length: 2\r\n\r\nabContent-Length: 2\r\n\r\ncd".toList := by
      simp
    rw [hj] at h
    exact h
  · have h := dap_parser_chunking_invariant.2 ("Bad\r\n\r\nxy".toList) 3
      (by decide) (by decide)
    have hd : ("Bad\r\n\r\nxy".toList).drop (3 + 4) = "xy".toList := by decide
    rw [hd] at h
    exact h

end McpNetcoredbg
